import Mathlib

/-!
Shallow embedding of the BuyLowSellHigh backtesting repository.

The embedding mirrors `src/strategies.py` (the shared `finalize_positions`
step of `BaseStrategy`) and `src/backtester.py` (the `Backtester` class:
`run`, `_compute_sharpe`, `_compute_max_drawdown`, `_compute_trade_stats`).

Modelling conventions:
- pandas float values are modelled as `ℚ`; a missing value (NaN) is `none`
  in `Option ℚ`.  NaN-propagating arithmetic (`NaN + x = NaN`, `NaN * x = NaN`)
  is `oadd` / `omul`; pandas skipna aggregation (mean, std, min, cumprod,
  cummax skip NaN entries) is modelled by skipping `none` entries.
- `close[i] / close[i-1]` with a zero previous close would give an IEEE
  infinity; the model returns `none` there and every theorem about numeric
  values assumes strictly positive closes (the PriceBar invariant).
- the DataFrame is a `Frame`: three presence flags (one per required column)
  and a row list; a missing column is a `false` flag and reading it fails
  with a key error, matching the point in the Python code where the column
  subscription would raise.
- `df.sort_values` with a Bool key comparison is modelled by the stable
  `List.insertionSort` keyed on the Datetime column.
- the Sharpe ratio is a real number because of the square roots; everything
  else in the pipeline stays in `ℚ` and is executable.  The run result
  stores the (mean, sample variance) pair that determines the Sharpe value.
-/

namespace BLSH

/-- NaN-propagating addition on pandas floats: a sum with a missing value is
missing. -/
def oadd (a b : Option ℚ) : Option ℚ :=
  match a, b with
  | some x, some y => some (x + y)
  | _, _ => none

/-- NaN-propagating multiplication of a pandas float by a plain rational. -/
def omul (a : Option ℚ) (p : ℚ) : Option ℚ :=
  a.map (fun x => x * p)

/-- Sum of a pandas float list starting from 0, as the trade loop accumulates
it: one missing summand poisons the whole sum. -/
def osum (l : List (Option ℚ)) : Option ℚ :=
  l.foldl oadd (some 0)

/-- Mean as `numpy.mean`: the (NaN-propagating) sum divided by the length. -/
def omean (l : List (Option ℚ)) : Option ℚ :=
  (osum l).map (fun s => s / (l.length : ℚ))

/-- Model of `Series.pct_change` on a NaN-free column: the first entry is
missing, entry `i` is `close[i]/close[i-1] - 1`.  A zero previous close is
modelled as missing (the float code would produce an infinity there; all
theorems assume positive closes). -/
def pctChangeGo : ℚ → List ℚ → List (Option ℚ)
  | _, [] => []
  | prev, x :: t => (if prev = 0 then none else some (x / prev - 1)) :: pctChangeGo x t

/-- Model of `Series.pct_change` (see `pctChangeGo`). -/
def pctChange (l : List ℚ) : List (Option ℚ) :=
  match l with
  | [] => []
  | x :: t => none :: pctChangeGo x t

/-- Model of `Series.cumprod` with its default skipna behaviour: a missing
entry stays missing in the output and does not touch the running product. -/
def cumprodSkip : ℚ → List (Option ℚ) → List (Option ℚ)
  | _, [] => []
  | acc, none :: t => none :: cumprodSkip acc t
  | acc, some x :: t => some (acc * x) :: cumprodSkip (acc * x) t

/-- Model of `Series.cummax` with its default skipna behaviour. -/
def cummaxSkip : Option ℚ → List (Option ℚ) → List (Option ℚ)
  | _, [] => []
  | acc, none :: t => none :: cummaxSkip acc t
  | acc, some x :: t =>
      match acc with
      | none => some x :: cummaxSkip (some x) t
      | some a => some (max a x) :: cummaxSkip (some (max a x)) t

/-- Model of `Series.min` (skipna): the least defined entry, or missing when
no entry is defined. -/
def ominOf (l : List (Option ℚ)) : Option ℚ :=
  match l.filterMap id with
  | [] => none
  | x :: t => some (t.foldl min x)

/-- Mean of a plain rational list (`Series.mean` over the non-missing
values). -/
def listMean (l : List ℚ) : ℚ :=
  l.sum / (l.length : ℚ)

/-- Sample variance with the pandas default `ddof = 1` (`Series.std` is its
square root). -/
def listVar (l : List ℚ) : ℚ :=
  ((l.map (fun x => (x - listMean l) ^ 2)).sum) / ((l.length - 1 : ℕ) : ℚ)

/-- The data `Backtester._compute_sharpe` extracts from the strategy-return
series: the mean and sample variance of the non-missing values, or `none`
when fewer than two values are defined (pandas `std` is NaN there, so the
`std == 0` test is false and the float formula propagates NaN). -/
def sharpeMeanVar (returns : List (Option ℚ)) : Option (ℚ × ℚ) :=
  let vals := returns.filterMap id
  if vals.length ≤ 1 then none
  else some (listMean vals, listVar vals)

/-- Model of `Backtester._compute_sharpe`: 0 when the standard deviation is
exactly 0, otherwise `mean / std * sqrt(252 * 6.5)`; missing when the
standard deviation itself is undefined. -/
noncomputable def computeSharpe (returns : List (Option ℚ)) : Option ℝ :=
  (sharpeMeanVar returns).map (fun mv =>
    if mv.2 = 0 then 0
    else ((mv.1 : ℝ) / Real.sqrt (mv.2 : ℝ)) * Real.sqrt (252 * 6.5))

/-- One entry of the drawdown column `(equity - rolling_max) / rolling_max`:
missing when either operand is missing (NaN arithmetic). -/
def ddCell (e m : Option ℚ) : Option ℚ :=
  match e, m with
  | some ev, some mv => some ((ev - mv) / mv)
  | _, _ => none

/-- Model of `Backtester._compute_max_drawdown`: running maximum of the
equity curve, per-bar drawdown `(equity - rollingMax) / rollingMax`, and the
minimum drawdown over the series. -/
def computeMaxDrawdown (equity : List (Option ℚ)) : Option ℚ :=
  let rollingMax := cummaxSkip none equity
  let dd := List.zipWith ddCell equity rollingMax
  ominOf dd

/-- Pure running maximum of a rational list from a seed: proof-side
counterpart of `cummaxSkip` on a NaN-free column. -/
def cummaxQ : ℚ → List ℚ → List ℚ
  | _, [] => []
  | a, x :: t => max a x :: cummaxQ (max a x) t

/-- Number of bars where `position.diff().fillna(0) != 0`: the first diff is
NaN hence filled to 0, so this counts indices `i ≥ 1` with
`position[i] ≠ position[i-1]`. -/
def countChanges (pos : List ℚ) : ℕ :=
  (pos.zip pos.tail).countP (fun ab => decide (ab.2 - ab.1 ≠ 0))

/-- The `for _, row in df.iterrows()` loop of `_compute_trade_stats`: rows
are (position, pnl) pairs, `prev` the previous position, `cur` the PnL
accumulated for the current run.  A row whose position equals `prev` adds its
PnL to the accumulator; a change appends the accumulator and resets it to 0
(the changing row's own PnL goes to neither run).  After the loop the final
accumulator is appended when it differs from 0 (a NaN accumulator compares
unequal to 0 in Python, so it is appended). -/
def tradeLoop : ℚ → Option ℚ → List (ℚ × Option ℚ) → List (Option ℚ)
  | _, cur, [] => if cur ≠ some 0 then [cur] else []
  | prev, cur, (p, x) :: t =>
      if p = prev then tradeLoop p (oadd cur x) t
      else cur :: tradeLoop p (some 0) t

/-- The scored trade PnL list of `_compute_trade_stats`, starting the loop
with `prev = position[0]` and a zero accumulator. -/
def tradePnls (pos : List ℚ) (pnl : List (Option ℚ)) : List (Option ℚ) :=
  match pos with
  | [] => []
  | p0 :: _ => tradeLoop p0 (some 0) (pos.zip pnl)

/-- The per-bar PnL column `df["pnl"] = strategy_returns * initial_capital`. -/
def pnlOf (sr : List (Option ℚ)) (cap : ℚ) : List (Option ℚ) :=
  sr.map (fun o => omul o cap)

/-- The trade-statistics record returned by `_compute_trade_stats`. -/
structure TradeStats where
  numTrades : ℕ
  wins : ℕ
  losses : ℕ
  winRate : ℚ
  avgPnl : Option ℚ
deriving DecidableEq, Repr

/-- Errors a `Backtester` run can surface: a pandas KeyError from reading a
missing column, or an IndexError from `iloc` on an empty series. -/
inductive BtError where
  | keyError (col : String)
  | indexError
deriving DecidableEq, Repr

/-- The aggregation step of `_compute_trade_stats` on a nonempty frame:
count position changes, run the trade loop, count wins (scored PnL > 0) and
losses (scored PnL < 0, a missing PnL counting as neither), and form
`win_rate = wins / max(1, wins + losses)` and the average scored PnL (0 when
no PnL was scored). -/
def tradeStatsOf (pos : List ℚ) (sr : List (Option ℚ)) (cap : ℚ) : TradeStats :=
  let pnls := tradePnls pos (pnlOf sr cap)
  let wins := pnls.countP (fun o => (o.map (fun q => decide (0 < q))).getD false)
  let losses := pnls.countP (fun o => (o.map (fun q => decide (q < 0))).getD false)
  ⟨countChanges pos, wins, losses,
    (wins : ℚ) / ((max 1 (wins + losses) : ℕ) : ℚ),
    if pnls.length > 0 then omean pnls else some 0⟩

/-- Model of `Backtester._compute_trade_stats` given the position column, the
strategy-return column and the initial capital.  `df["position"].iloc[0]`
raises an IndexError on an empty frame; otherwise the computation is total. -/
def computeTradeStats (pos : List ℚ) (sr : List (Option ℚ)) (cap : ℚ) :
    Except BtError TradeStats :=
  match pos with
  | [] => .error .indexError
  | _ :: _ => .ok (tradeStatsOf pos sr cap)

/-- One row of the input DataFrame: the Datetime, Close and position fields. -/
structure Row where
  datetime : ℚ
  close : ℚ
  pos : ℚ
deriving DecidableEq, Repr

/-- The input DataFrame: one presence flag per required column (a pandas
frame can lack a column wholesale) and the row data. -/
structure Frame where
  hasDatetime : Bool
  hasClose : Bool
  hasPosition : Bool
  rows : List Row
deriving DecidableEq, Repr

/-- Everything `Backtester.run` returns in its results dict, minus the raw
Sharpe float: `sharpeMV` stores the (mean, variance) pair that determines it
(see `computeSharpe`), keeping the run executable. -/
structure RunResult where
  finalEquity : Option ℚ
  buyHoldFinal : Option ℚ
  sharpeMV : Option (ℚ × ℚ)
  maxDrawdown : Option ℚ
  tradeStats : TradeStats
  returns : List (Option ℚ)
  strategyReturns : List (Option ℚ)
  equity : List (Option ℚ)
  buyHold : List (Option ℚ)
deriving DecidableEq, Repr

/-- Stable sort of the rows by the Datetime column, as
`df.sort_values("Datetime")`. -/
def sortRows (rows : List Row) : List Row :=
  rows.insertionSort (fun a b => a.datetime ≤ b.datetime)

/-- Model of `Backtester.__init__`: copy the frame and sort by Datetime;
sorting on a missing Datetime column raises a KeyError. -/
def Backtester.init (df : Frame) : Except BtError Frame :=
  if df.hasDatetime then .ok { df with rows := sortRows df.rows }
  else .error (.keyError ("Datetime"))

/-- Step 1 of `Backtester.run`: `df["returns"] = df["Close"].pct_change()`. -/
def returnsOf (rows : List Row) : List (Option ℚ) :=
  pctChange (rows.map Row.close)

/-- Step 2 of `Backtester.run`:
`df["strategy_returns"] = df["returns"] * df["position"]`. -/
def srOf (rows : List Row) : List (Option ℚ) :=
  List.zipWith omul (returnsOf rows) (rows.map Row.pos)

/-- Step 3 of `Backtester.run`:
`df["equity"] = (1 + df["strategy_returns"]).cumprod() * initial_capital`. -/
def equityOf (rows : List Row) (cap : ℚ) : List (Option ℚ) :=
  (cumprodSkip 1 ((srOf rows).map (Option.map (fun r => 1 + r)))).map
    (Option.map (fun v => v * cap))

/-- Step 4 of `Backtester.run`:
`df["buy_hold"] = (1 + df["returns"]).cumprod() * initial_capital`. -/
def buyHoldOf (rows : List Row) (cap : ℚ) : List (Option ℚ) :=
  (cumprodSkip 1 ((returnsOf rows).map (Option.map (fun r => 1 + r)))).map
    (Option.map (fun v => v * cap))

/-- Model of `Backtester.run` on the sorted frame: returns, strategy returns,
equity and buy-and-hold curves, Sharpe data, max drawdown, trade statistics
and the final values, with each column read failing exactly where the Python
code would subscript the missing column, and the `iloc[-1]` reads failing on
an empty series. -/
def Backtester.run (df : Frame) (cap : ℚ) : Except BtError RunResult :=
  if df.hasClose = false then .error (.keyError ("Close"))
  else
    let returns := returnsOf df.rows
    if df.hasPosition = false then .error (.keyError ("position"))
    else
      let sr := srOf df.rows
      let equity := equityOf df.rows cap
      let buyHold := buyHoldOf df.rows cap
      let smv := sharpeMeanVar sr
      let maxDd := computeMaxDrawdown equity
      match computeTradeStats (df.rows.map Row.pos) sr cap with
      | .error e => .error e
      | .ok tstats =>
          match equity.getLast? with
          | none => .error .indexError
          | some finalEq =>
              match buyHold.getLast? with
              | none => .error .indexError
              | some finalBh =>
                  .ok ⟨finalEq, finalBh, smv, maxDd, tstats, returns, sr, equity, buyHold⟩

/-- Construct the backtester on a frame and run it: the composition external
callers use. -/
def backtest (df : Frame) (cap : ℚ) : Except BtError RunResult :=
  match Backtester.init df with
  | .error e => .error e
  | .ok b => Backtester.run b cap

/-- Model of `Series.clip(-1, 1)`. -/
def clip1 (x : ℚ) : ℚ :=
  min 1 (max (-1) x)

/-- The signal coercion of `finalize_positions`:
`signal.fillna(0).astype(float).clip(-1, 1)`. -/
def coerceSignal (s : Option ℚ) : ℚ :=
  clip1 (s.getD 0)

/-- Model of `Series.shift(1).fillna(0)`: a leading 0, and the last entry
dropped. -/
def shift1 (l : List ℚ) : List ℚ :=
  match l with
  | [] => []
  | _ => 0 :: l.dropLast

/-- The error message of `finalize_positions` for a frame with no signal
column (the Python source raises `ValueError` and the message quotes the
column name; the quotes are dropped here). -/
def signalMissingMsg : String :=
  "Strategy did not produce a signal column."

/-- Model of `BaseStrategy.finalize_positions`: the input is the signal
column when the strategy produced one (entries may be missing).  It fails
when the column is absent, otherwise coerces the signal (missing to 0, then
clipped to [-1, 1]) and derives the position column as the one-bar-delayed
coerced signal.  Returns (signal, position) as finalized. -/
def finalize_positions (signal : Option (List (Option ℚ))) :
    Except String (List ℚ × List ℚ) :=
  match signal with
  | none => .error signalMissingMsg
  | some s =>
      let sig := s.map coerceSignal
      .ok (sig, shift1 sig)

/-! ## Spec-side definitions

Definitions written from the specification's words, to be compared with the
definitions translated from the source. -/

/-- Maximal runs of consecutive rows sharing the same position value: each
run is returned as its position value paired with the PnL entries of its
bars, in order. -/
def splitRuns : List (ℚ × Option ℚ) → List (ℚ × List (Option ℚ))
  | [] => []
  | (p, x) :: t =>
      match splitRuns t with
      | [] => [(p, [x])]
      | (q, xs) :: rest =>
          if p = q then (p, x :: xs) :: rest
          else (p, [x]) :: (q, xs) :: rest

/-- Drop the final score when it is exactly 0: the end-of-series flush in the
source appends the last accumulator only when it compares unequal to 0. -/
def keepLast (l : List (Option ℚ)) : List (Option ℚ) :=
  match l.getLast? with
  | none => []
  | some last => if last = some 0 then l.dropLast else l

/-- Scored trade PnLs as the amended claim describes them: one score per
maximal run where the first run is scored by the sum over all its bars (so
bar 0's missing PnL poisons it) and every later run by the sum over its bars
excluding the first (the bar of the position change), with the final score
kept only when it differs from 0. -/
def tradePnlsSpec (rows : List (ℚ × Option ℚ)) : List (Option ℚ) :=
  match splitRuns rows with
  | [] => []
  | (_, xs) :: rest => keepLast (osum xs :: rest.map (fun r => osum r.2.tail))

/-- Scored trade PnLs as claim C2 states them: one score per maximal run,
each equal to the sum of `stratReturn * initial_capital` over all bars of
the run. -/
def tradePnlsClaim (rows : List (ℚ × Option ℚ)) : List (Option ℚ) :=
  (splitRuns rows).map (fun r => osum r.2)

/-! ## Proof-side helpers for the trade loop -/

/-- The trade loop without its end-of-series flush condition: the final
accumulator is always emitted.  `tradeLoop` is `keepLast` of this. -/
def scoresG : ℚ → Option ℚ → List (ℚ × Option ℚ) → List (Option ℚ)
  | _, cur, [] => [cur]
  | prev, cur, (p, x) :: t =>
      if p = prev then scoresG p (oadd cur x) t
      else cur :: scoresG p (some 0) t

/-- Run scores of `scoresG` described through `splitRuns`, generalized over
the starting accumulator and previous-position value. -/
def runScoresAux (prev : ℚ) (cur : Option ℚ) (rows : List (ℚ × Option ℚ)) :
    List (Option ℚ) :=
  match splitRuns rows with
  | [] => [cur]
  | (q, xs) :: rest =>
      if q = prev then xs.foldl oadd cur :: rest.map (fun r => osum r.2.tail)
      else cur :: osum xs.tail :: rest.map (fun r => osum r.2.tail)

/-! ## Concrete inputs used by counterexamples and witnesses -/

/-- Two-bar frame whose second position value is the fraction 1/2. -/
def dfFracPos : Frame :=
  ⟨true, true, true, [⟨0, 100, 0⟩, ⟨1, 110, 1/2⟩]⟩

/-- Two-bar frame that is flat (position 0) throughout. -/
def dfAllFlat : Frame :=
  ⟨true, true, true, [⟨0, 100, 0⟩, ⟨1, 110, 0⟩]⟩

/-- Single-bar frame. -/
def dfOneBar : Frame :=
  ⟨true, true, true, [⟨0, 100, 0⟩]⟩

/-! ## Lemmas about the trade loop -/

theorem scoresG_ne_nil (rows : List (ℚ × Option ℚ)) :
    ∀ prev cur, scoresG prev cur rows ≠ [] := by
  induction rows with
  | nil => intro prev cur; simp [scoresG]
  | cons h t ih =>
      intro prev cur
      obtain ⟨p, x⟩ := h
      by_cases hp : p = prev <;> simp [scoresG, hp, ih]

theorem keepLast_cons (a : Option ℚ) (l : List (Option ℚ)) (h : l ≠ []) :
    keepLast (a :: l) = a :: keepLast l := by
  obtain ⟨v, hv⟩ : ∃ v, l.getLast? = some v := by
    cases hl : l.getLast? with
    | none => exact absurd (List.getLast?_eq_none_iff.mp hl) h
    | some v => exact ⟨v, rfl⟩
  simp only [keepLast, List.getLast?_cons, hv, Option.getD_some,
    List.dropLast_cons_of_ne_nil h]
  by_cases h0 : v = some 0 <;> simp [h0]

theorem tradeLoop_eq_keepLast_scoresG (rows : List (ℚ × Option ℚ)) :
    ∀ prev cur, tradeLoop prev cur rows = keepLast (scoresG prev cur rows) := by
  induction rows with
  | nil =>
      intro prev cur
      by_cases h0 : cur = some 0 <;>
        simp [tradeLoop, scoresG, keepLast, h0]
  | cons h t ih =>
      intro prev cur
      obtain ⟨p, x⟩ := h
      by_cases hp : p = prev
      · simp [tradeLoop, scoresG, hp, ih]
      · simp only [tradeLoop, scoresG, hp, if_false, if_neg hp]
        rw [keepLast_cons _ _ (scoresG_ne_nil t p (some 0)), ih]

theorem scoresG_eq_runScoresAux (rows : List (ℚ × Option ℚ)) :
    ∀ prev cur, scoresG prev cur rows = runScoresAux prev cur rows := by
  induction rows with
  | nil => intro prev cur; simp [scoresG, runScoresAux, splitRuns]
  | cons hd t ih =>
      intro prev cur
      obtain ⟨p, x⟩ := hd
      by_cases hp : p = prev
      · subst hp
        rw [scoresG, if_pos rfl, ih]
        unfold runScoresAux
        cases ht : splitRuns t with
        | nil =>
            simp [splitRuns, ht, osum]
        | cons r rest =>
            obtain ⟨q, xs⟩ := r
            by_cases hq : q = p
            · subst hq
              simp [splitRuns, ht]
            · simp [splitRuns, ht, hq, Ne.symm hq, osum]
      · rw [scoresG, if_neg hp, ih]
        unfold runScoresAux
        cases ht : splitRuns t with
        | nil =>
            simp [splitRuns, ht, hp, osum]
        | cons r rest =>
            obtain ⟨q, xs⟩ := r
            by_cases hq : q = p
            · subst hq
              simp [splitRuns, ht, hp, osum]
            · simp [splitRuns, ht, hp, hq, Ne.symm hq, osum]

theorem splitRuns_cons_key (p : ℚ) (x : Option ℚ) (t : List (ℚ × Option ℚ)) :
    ∃ xs rest, splitRuns ((p, x) :: t) = (p, x :: xs) :: rest := by
  unfold splitRuns
  cases ht : splitRuns t with
  | nil => exact ⟨[], [], rfl⟩
  | cons r rest =>
      obtain ⟨q, xs⟩ := r
      by_cases hq : p = q
      · subst hq; exact ⟨xs, rest, by simp⟩
      · exact ⟨[], (q, xs) :: rest, by simp [hq]⟩

theorem tradePnls_eq_spec (pos : List ℚ) (pnl : List (Option ℚ)) :
    tradePnls pos pnl = tradePnlsSpec (pos.zip pnl) := by
  cases pos with
  | nil => simp [tradePnls, tradePnlsSpec, splitRuns, List.zip]
  | cons p0 pt =>
      cases pnl with
      | nil =>
          simp [tradePnls, tradePnlsSpec, splitRuns, tradeLoop, List.zip, keepLast]
      | cons x0 xt =>
          rw [tradePnls, tradeLoop_eq_keepLast_scoresG, scoresG_eq_runScoresAux]
          show keepLast (runScoresAux p0 (some 0) ((p0, x0) :: pt.zip xt)) = _
          obtain ⟨xs, rest, hsplit⟩ := splitRuns_cons_key p0 x0 (pt.zip xt)
          rw [runScoresAux, tradePnlsSpec]
          simp only [List.zip_cons_cons] at hsplit ⊢
          rw [hsplit]
          simp [osum]

/-! ## Lemmas about the run pipeline -/

theorem length_pctChangeGo (t : List ℚ) :
    ∀ prev, (pctChangeGo prev t).length = t.length := by
  induction t with
  | nil => intro prev; rfl
  | cons x t ih => intro prev; simp [pctChangeGo, ih]

theorem length_pctChange (l : List ℚ) : (pctChange l).length = l.length := by
  cases l with
  | nil => rfl
  | cons x t => simp [pctChange, length_pctChangeGo]

theorem length_cumprodSkip (l : List (Option ℚ)) :
    ∀ acc, (cumprodSkip acc l).length = l.length := by
  induction l with
  | nil => intro acc; rfl
  | cons x t ih => intro acc; cases x <;> simp [cumprodSkip, ih]

theorem length_returnsOf (rows : List Row) :
    (returnsOf rows).length = rows.length := by
  simp [returnsOf, length_pctChange]

theorem length_srOf (rows : List Row) : (srOf rows).length = rows.length := by
  simp [srOf, length_returnsOf]

theorem length_equityOf (rows : List Row) (cap : ℚ) :
    (equityOf rows cap).length = rows.length := by
  simp [equityOf, length_cumprodSkip, length_srOf]

theorem length_buyHoldOf (rows : List Row) (cap : ℚ) :
    (buyHoldOf rows cap).length = rows.length := by
  simp [buyHoldOf, length_cumprodSkip, length_returnsOf]

theorem sortRows_perm (rows : List Row) : List.Perm (sortRows rows) rows :=
  List.perm_insertionSort _ rows

theorem length_sortRows (rows : List Row) : (sortRows rows).length = rows.length :=
  (sortRows_perm rows).length_eq

theorem run_cons_eq (b : Bool) (r0 : Row) (rt : List Row) (cap : ℚ) :
    Backtester.run ⟨b, true, true, r0 :: rt⟩ cap =
      .ok ⟨(equityOf (r0 :: rt) cap).getLast?.getD none,
           (buyHoldOf (r0 :: rt) cap).getLast?.getD none,
           sharpeMeanVar (srOf (r0 :: rt)),
           computeMaxDrawdown (equityOf (r0 :: rt) cap),
           tradeStatsOf ((r0 :: rt).map Row.pos) (srOf (r0 :: rt)) cap,
           returnsOf (r0 :: rt), srOf (r0 :: rt), equityOf (r0 :: rt) cap,
           buyHoldOf (r0 :: rt) cap⟩ := by
  have he : equityOf (r0 :: rt) cap ≠ [] := by
    have hl := length_equityOf (r0 :: rt) cap
    intro h
    rw [h] at hl
    simp at hl
  have hb : buyHoldOf (r0 :: rt) cap ≠ [] := by
    have hl := length_buyHoldOf (r0 :: rt) cap
    intro h
    rw [h] at hl
    simp at hl
  obtain ⟨ve, hve⟩ := Option.isSome_iff_exists.mp (List.getLast?_isSome.mpr he)
  obtain ⟨vb, hvb⟩ := Option.isSome_iff_exists.mp (List.getLast?_isSome.mpr hb)
  unfold Backtester.run
  simp only [computeTradeStats, List.map_cons, hve, hvb]
  simp [Option.getD]

theorem run_noClose (df : Frame) (cap : ℚ) (h : df.hasClose = false) :
    Backtester.run df cap = .error (.keyError ("Close")) := by
  unfold Backtester.run
  rw [h]
  simp

theorem run_noPosition (df : Frame) (cap : ℚ) (hc : df.hasClose = true)
    (hp : df.hasPosition = false) :
    Backtester.run df cap = .error (.keyError ("position")) := by
  unfold Backtester.run
  rw [hc, hp]
  simp

theorem run_emptyRows (df : Frame) (cap : ℚ) (hc : df.hasClose = true)
    (hp : df.hasPosition = true) (hr : df.rows = []) :
    Backtester.run df cap = .error .indexError := by
  unfold Backtester.run
  rw [hc, hp, hr]
  simp [computeTradeStats]

theorem backtest_eq_run (df : Frame) (cap : ℚ) (hd : df.hasDatetime = true) :
    backtest df cap =
      Backtester.run ⟨df.hasDatetime, df.hasClose, df.hasPosition, sortRows df.rows⟩ cap := by
  unfold backtest Backtester.init
  rw [hd]
  simp

theorem backtest_noDatetime (df : Frame) (cap : ℚ) (h : df.hasDatetime = false) :
    backtest df cap = .error (.keyError ("Datetime")) := by
  unfold backtest Backtester.init
  rw [h]
  simp

/-- The run succeeds exactly when the three required columns are present and
the series is nonempty; the values in the position column play no part. -/
theorem backtest_isOk_iff (df : Frame) (cap : ℚ) :
    (∃ r, backtest df cap = .ok r) ↔
      (df.hasDatetime = true ∧ df.hasClose = true ∧ df.hasPosition = true ∧
        df.rows ≠ []) := by
  constructor
  · rintro ⟨r, hr⟩
    by_cases hd : df.hasDatetime = true
    · rw [backtest_eq_run df cap hd] at hr
      by_cases hc : df.hasClose = true
      · by_cases hp : df.hasPosition = true
        · by_cases hrows : df.rows = []
          · rw [run_emptyRows
                ⟨df.hasDatetime, df.hasClose, df.hasPosition, sortRows df.rows⟩
                cap hc hp (by simp [sortRows, hrows])] at hr
            cases hr
          · exact ⟨hd, hc, hp, hrows⟩
        · rw [run_noPosition
              ⟨df.hasDatetime, df.hasClose, df.hasPosition, sortRows df.rows⟩
              cap hc (by simpa using hp)] at hr
          cases hr
      · rw [run_noClose
            ⟨df.hasDatetime, df.hasClose, df.hasPosition, sortRows df.rows⟩
            cap (by simpa using hc)] at hr
        cases hr
    · rw [backtest_noDatetime df cap (by simpa using hd)] at hr
      cases hr
  · rintro ⟨hd, hc, hp, hne⟩
    rw [backtest_eq_run df cap hd, hc, hp]
    have hsne : sortRows df.rows ≠ [] := by
      intro h
      have hl := length_sortRows df.rows
      rw [h] at hl
      exact hne (List.eq_nil_of_length_eq_zero hl.symm)
    obtain ⟨r0, rt, hcons⟩ := List.exists_cons_of_ne_nil hsne
    rw [hcons, run_cons_eq]
    exact ⟨_, rfl⟩

/-! ## Claim theorems -/

/-- Claim C1: for every input signal series (hence for every strategy
variant, since the shared finalize step is the last thing each variant
runs), `finalize_positions` produces `position[0] = 0` and, for every bar
`i ≥ 1`, `position[i]` equal to the coerced signal of the previous bar
(missing coerced to 0, then clamped to [-1, 1]) — the no-lookahead
invariant. -/
theorem claim1_finalize_no_lookahead (s : List (Option ℚ)) :
    ∃ pos, finalize_positions (some s) = .ok (s.map coerceSignal, pos) ∧
      (s ≠ [] → pos[0]? = some 0) ∧
      (∀ i : ℕ, i + 1 < s.length → pos[i + 1]? = (s[i]?).map coerceSignal) := by
  refine ⟨shift1 (s.map coerceSignal), rfl, ?_, ?_⟩
  · intro hne
    cases s with
    | nil => exact absurd rfl hne
    | cons a t => simp [shift1]
  · intro i hi
    cases s with
    | nil => simp at hi
    | cons a t =>
        show (0 :: ((a :: t).map coerceSignal).dropLast)[i + 1]? = _
        rw [List.getElem?_cons_succ, List.getElem?_dropLast]
        have hlt : i < ((a :: t).map coerceSignal).length - 1 := by
          simp only [List.length_map, List.length_cons]
          simp only [List.length_cons] at hi
          omega
        rw [if_pos hlt, List.getElem?_map]

/-- Witness for C1 at the concrete signal series [2, missing]: the coerced
signal is [1, 0] and the delayed positions give position[0] = 0 and
position[1] = coerced signal[0]. -/
theorem claim1_witness :
    ∃ pos, finalize_positions (some [some 2, none]) =
        .ok ([some 2, none].map coerceSignal, pos) ∧
      pos[0]? = some 0 ∧ pos[1]? = some (coerceSignal (some 2)) := by
  obtain ⟨pos, h1, h2, h3⟩ := claim1_finalize_no_lookahead [some 2, none]
  refine ⟨pos, h1, h2 (by decide), ?_⟩
  have h := h3 0 (by decide)
  simpa using h

/-- Claim C9: the mandatory finalize step fails with the missing-signal
configuration error exactly when its input lacks a signal column (in the
source a `ValueError` whose message says the strategy did not produce a
signal column), and otherwise performs the coercion and one-bar delay
without raising. -/
theorem claim9_finalize_error_behaviour :
    finalize_positions none = .error signalMissingMsg ∧
    ∀ s : List (Option ℚ),
      finalize_positions (some s) =
        .ok (s.map coerceSignal, shift1 (s.map coerceSignal)) :=
  ⟨rfl, fun _ => rfl⟩

/-- Claim C10: finalized positions are only clamped to [-1, 1], not rounded
to {-1, 0, +1}: a fractional signal q passes through `finalize_positions`
unrounded, and the engine consumes the fractional position without error,
scaling the bar return by q. -/
theorem claim10_fractional_position (q : ℚ) (h1 : -1 ≤ q) (h2 : q ≤ 1) :
    finalize_positions (some [some q, some 0]) = .ok ([q, 0], [0, q]) ∧
    ∃ r, backtest ⟨true, true, true, [⟨0, 100, 0⟩, ⟨1, 110, q⟩]⟩ 100000 = .ok r ∧
      r.strategyReturns = [none, some ((1 / 10) * q)] := by
  have hcq : coerceSignal (some q) = q := by
    simp [coerceSignal, clip1, max_eq_right h1, min_eq_right h2]
  have hc0 : coerceSignal (some 0) = 0 := by
    norm_num [coerceSignal, clip1]
  constructor
  · simp [finalize_positions, shift1, hcq, hc0]
  · rw [backtest_eq_run _ _ rfl]
    have hs : sortRows [⟨0, 100, 0⟩, ⟨1, 110, q⟩] = [⟨0, 100, 0⟩, ⟨1, 110, q⟩] := rfl
    show ∃ r, Backtester.run ⟨true, true, true, sortRows [⟨0, 100, 0⟩, ⟨1, 110, q⟩]⟩
        100000 = .ok r ∧ r.strategyReturns = [none, some ((1 / 10) * q)]
    rw [hs, run_cons_eq]
    refine ⟨_, rfl, ?_⟩
    show srOf [⟨0, 100, 0⟩, ⟨1, 110, q⟩] = [none, some ((1 / 10) * q)]
    simp [srOf, returnsOf, pctChange, pctChangeGo, omul]
    norm_num

/-- Witness for C10 at q = 1/2. -/
theorem claim10_witness :
    finalize_positions (some [some (1/2), some 0]) = .ok ([1/2, 0], [0, 1/2]) ∧
    ∃ r, backtest ⟨true, true, true, [⟨0, 100, 0⟩, ⟨1, 110, 1/2⟩]⟩ 100000 = .ok r ∧
      r.strategyReturns = [none, some ((1 / 10) * (1/2))] :=
  claim10_fractional_position (1/2) (by norm_num) (by norm_num)

/-- Claim C2 (amended): the scored trade PnLs are the per-run values of
`tradePnlsSpec`: one score per maximal run of equal positions, the first run
scored by the sum of `stratReturn * initial_capital` over all its bars (so
bar 0's undefined strategy return makes it missing/NaN), every later run by
the sum over its bars excluding the run's first bar (the bar of the position
change, whose PnL is dropped), and the final run's score recorded only when
it differs from exactly 0. -/
theorem claim2_trade_pnl_amended (pos : List ℚ) (sr : List (Option ℚ)) (cap : ℚ) :
    tradePnls pos (pnlOf sr cap) = tradePnlsSpec (pos.zip (pnlOf sr cap)) :=
  tradePnls_eq_spec pos (pnlOf sr cap)

/-- Counterexample to C2 as stated: positions [0, 1, 1] over closes
[100, 110, 121] at capital 100000.  The claim scores each run by the sum of
`stratReturn * initial_capital` over all its bars, which gives
[missing, 20000]; the code produces [missing, 10000], dropping the 10000 PnL
of the bar where the position changed to 1. -/
theorem claim2_counterexample :
    tradePnls [0, 1, 1]
        (pnlOf (srOf [⟨0, 100, 0⟩, ⟨1, 110, 1⟩, ⟨2, 121, 1⟩]) 100000) =
      [none, some 10000] ∧
    tradePnlsClaim (([0, 1, 1] : List ℚ).zip
        (pnlOf (srOf [⟨0, 100, 0⟩, ⟨1, 110, 1⟩, ⟨2, 121, 1⟩]) 100000)) =
      [none, some 20000] ∧
    ([none, some 10000] : List (Option ℚ)) ≠ [none, some 20000] := by
  have hsr : srOf [⟨0, 100, 0⟩, ⟨1, 110, 1⟩, ⟨2, 121, 1⟩] =
      [none, some (1/10), some (1/10)] := by
    simp [srOf, returnsOf, pctChange, pctChangeGo, omul]
    norm_num
  have hpnl : pnlOf (srOf [⟨0, 100, 0⟩, ⟨1, 110, 1⟩, ⟨2, 121, 1⟩]) 100000 =
      [none, some 10000, some 10000] := by
    rw [hsr]
    simp [pnlOf, omul]
    norm_num
  refine ⟨?_, ?_, by simp⟩
  · rw [hpnl]
    show tradeLoop 0 (some 0) [(0, none), (1, some 10000), (1, some 10000)] =
      [none, some 10000]
    norm_num [tradeLoop, oadd]
  · rw [hpnl]
    norm_num [tradePnlsClaim, splitRuns, osum, List.zip_cons_cons, oadd]

/-- Claim C3 (amended): for a series whose position goes 0, then 1, then
back to 0, exactly two trades are scored: the leading flat run, scored
missing (NaN) because bar 0's PnL is undefined and flushed at the 0→1
change, and the position-1 run, scored 0 because a single-bar run's own PnL
is dropped at its opening change, flushed at the 1→0 change.  The final
run's accumulator is 0 at the end of the series, so the end-of-series flush
(which only records a non-zero accumulator) records nothing for it.
`num_trades` counts the two position changes. -/
theorem claim3_single_roundtrip_amended (x y : Option ℚ) :
    countChanges [0, 1, 0] = 2 ∧
    tradePnls [0, 1, 0] [none, x, y] = [none, some 0] := by
  constructor
  · norm_num [countChanges, List.zip_cons_cons, List.countP_cons]
  · show tradeLoop 0 (some 0) [(0, none), (1, x), (0, y)] = [none, some 0]
    norm_num [tradeLoop, oadd]

/-- Counterexample to C3 as stated: positions [0, 1, 0] over closes
[100, 110, 121] at capital 100000.  The claim expects one completed trade
for the position-1 run (PnL 10000, the sum over its bars) plus one for the
final run's accumulated PnL (0) flushed at end of series; the code records
[missing, 0] — the leading run (NaN) and the position-1 run (0) — and never
flushes the final zero accumulator. -/
theorem claim3_counterexample :
    tradePnls [0, 1, 0]
        (pnlOf (srOf [⟨0, 100, 0⟩, ⟨1, 110, 1⟩, ⟨2, 121, 0⟩]) 100000) =
      [none, some 0] ∧
    ([none, some 0] : List (Option ℚ)) ≠ [some 10000, some 0] := by
  have hpnl : pnlOf (srOf [⟨0, 100, 0⟩, ⟨1, 110, 1⟩, ⟨2, 121, 0⟩]) 100000 =
      [none, some 10000, some 0] := by
    simp [pnlOf, srOf, returnsOf, pctChange, pctChangeGo, omul]
    norm_num
  refine ⟨?_, by simp⟩
  rw [hpnl]
  show tradeLoop 0 (some 0) [(0, none), (1, some 10000), (0, some 0)] =
    [none, some 0]
  norm_num [tradeLoop, oadd]

theorem winRate_nonneg (w l : ℕ) :
    0 ≤ (w : ℚ) / ((max 1 (w + l) : ℕ) : ℚ) := by
  apply div_nonneg (by positivity) (by positivity)

theorem winRate_le_one (w l : ℕ) :
    (w : ℚ) / ((max 1 (w + l) : ℕ) : ℚ) ≤ 1 := by
  have hpos : (0 : ℚ) < ((max 1 (w + l) : ℕ) : ℚ) := by
    exact_mod_cast Nat.lt_of_lt_of_le Nat.zero_lt_one (Nat.le_max_left _ _)
  rw [div_le_one hpos]
  exact_mod_cast Nat.le_trans (Nat.le_add_right _ _) (Nat.le_max_right _ _)

/-- Claim C8: on a nonempty frame the trade-statistics computation never
raises, and each numeric edge case produces its defined fallback: win rate
equals `wins / max(1, wins + losses)`, lies in [0, 1], and is 0 when no
scored trade has a defined nonzero PnL; average PnL is the mean of the
scored trade PnLs, or 0 when none were scored. -/
theorem claim8_trade_stat_fallbacks (pos : List ℚ) (sr : List (Option ℚ))
    (cap : ℚ) (hne : pos ≠ []) :
    ∃ st, computeTradeStats pos sr cap = .ok st ∧
      st.winRate = (st.wins : ℚ) / ((max 1 (st.wins + st.losses) : ℕ) : ℚ) ∧
      0 ≤ st.winRate ∧ st.winRate ≤ 1 ∧
      ((∀ x ∈ tradePnls pos (pnlOf sr cap), x = none ∨ x = some 0) →
        st.winRate = 0) ∧
      st.avgPnl = (if (tradePnls pos (pnlOf sr cap)).length > 0
        then omean (tradePnls pos (pnlOf sr cap)) else some 0) := by
  obtain ⟨p0, pt, hp⟩ := List.exists_cons_of_ne_nil hne
  subst hp
  refine ⟨tradeStatsOf (p0 :: pt) sr cap, rfl, rfl, ?_, ?_, ?_, rfl⟩
  · exact winRate_nonneg (tradeStatsOf (p0 :: pt) sr cap).wins
      (tradeStatsOf (p0 :: pt) sr cap).losses
  · exact winRate_le_one (tradeStatsOf (p0 :: pt) sr cap).wins
      (tradeStatsOf (p0 :: pt) sr cap).losses
  · intro hz
    have hwins : (tradeStatsOf (p0 :: pt) sr cap).wins = 0 := by
      refine List.countP_eq_zero.mpr ?_
      intro a ha
      rcases hz a ha with h | h <;> subst h <;> simp
    show ((tradeStatsOf (p0 :: pt) sr cap).wins : ℚ) /
      ((max 1 ((tradeStatsOf (p0 :: pt) sr cap).wins +
        (tradeStatsOf (p0 :: pt) sr cap).losses) : ℕ) : ℚ) = 0
    rw [hwins]
    simp

/-- Witness for C8 at positions [0, 1] with strategy returns
[missing, 1/10] and capital 100000: one scored (missing) trade, no wins, no
losses, win rate 0 and missing average PnL, with no exception modelled. -/
theorem claim8_witness :
    ∃ st, computeTradeStats [0, 1] [none, some (1/10)] 100000 = .ok st ∧
      st.winRate = (st.wins : ℚ) / ((max 1 (st.wins + st.losses) : ℕ) : ℚ) ∧
      0 ≤ st.winRate ∧ st.winRate ≤ 1 ∧
      ((∀ x ∈ tradePnls [0, 1] (pnlOf [none, some (1/10)] 100000),
          x = none ∨ x = some 0) → st.winRate = 0) ∧
      st.avgPnl = (if (tradePnls [0, 1] (pnlOf [none, some (1/10)] 100000)).length > 0
        then omean (tradePnls [0, 1] (pnlOf [none, some (1/10)] 100000)) else some 0) :=
  claim8_trade_stat_fallbacks [0, 1] [none, some (1/10)] 100000 (by decide)

/-! ## Lemmas for the all-flat equity claim -/

theorem cumprodSkip_all_one (l : List (Option ℚ)) :
    ∀ a, (∀ x ∈ l, x = some 1) → cumprodSkip a l = l.map (fun _ => some a) := by
  induction l with
  | nil => intro a _; rfl
  | cons x t ih =>
      intro a hx
      have hx0 : x = some 1 := hx x (List.mem_cons_self _ _)
      subst hx0
      show some (a * 1) :: cumprodSkip (a * 1) t = some a :: t.map (fun _ => some a)
      rw [mul_one, ih a (fun y hy => hx y (List.mem_cons_of_mem _ hy))]

theorem pctChangeGo_all_some (t : List ℚ) :
    ∀ prev, prev ≠ 0 → (∀ c ∈ t, c ≠ 0) →
      ∀ y ∈ pctChangeGo prev t, y ≠ none := by
  induction t with
  | nil => intro prev _ _ y hy; simp [pctChangeGo] at hy
  | cons c t ih =>
      intro prev hprev hall y hy
      simp only [pctChangeGo, if_neg hprev, List.mem_cons] at hy
      rcases hy with h | h
      · subst h; simp
      · exact ih c (hall c (List.mem_cons_self _ _))
          (fun d hd => hall d (List.mem_cons_of_mem _ hd)) y h

theorem zipWith_omul_flat (R : List (Option ℚ)) :
    ∀ P : List ℚ, (∀ y ∈ R, y ≠ none) → (∀ p ∈ P, p = 0) →
      ∀ x ∈ List.zipWith omul R P, x = some 0 := by
  induction R with
  | nil => intro P _ _ x hx; simp at hx
  | cons r R ih =>
      intro P hR hP x hx
      cases P with
      | nil => simp at hx
      | cons p P =>
          simp only [List.zipWith_cons_cons, List.mem_cons] at hx
          rcases hx with h | h
          · subst h
            have hp : p = 0 := hP p (List.mem_cons_self _ _)
            have hr : r ≠ none := hR r (List.mem_cons_self _ _)
            obtain ⟨v, hv⟩ := Option.ne_none_iff_exists.mp hr
            rw [← hv, hp]
            simp [omul]
          · exact ih P (fun y hy => hR y (List.mem_cons_of_mem _ hy))
              (fun q hq => hP q (List.mem_cons_of_mem _ hq)) x h

theorem equityOf_flat_cons (r0 : Row) (rt : List Row) (cap : ℚ)
    (hclose0 : r0.close ≠ 0) (hcloset : ∀ r ∈ rt, r.close ≠ 0)
    (hflat : ∀ r ∈ rt, r.pos = 0) :
    ∃ E, equityOf (r0 :: rt) cap = none :: E ∧
      E.length = rt.length ∧ ∀ x ∈ E, x = some cap := by
  have hret : ∀ y ∈ pctChangeGo r0.close (rt.map Row.close), y ≠ none := by
    refine pctChangeGo_all_some _ r0.close hclose0 ?_
    intro c hc
    obtain ⟨r, hr, hrc⟩ := List.mem_map.mp hc
    exact hrc ▸ hcloset r hr
  have hsr : ∀ x ∈ List.zipWith omul (pctChangeGo r0.close (rt.map Row.close))
      (rt.map Row.pos), x = some 0 := by
    refine zipWith_omul_flat _ _ hret ?_
    intro p hp
    obtain ⟨r, hr, hrp⟩ := List.mem_map.mp hp
    exact hrp ▸ hflat r hr
  have hsrOf : srOf (r0 :: rt) = none ::
      List.zipWith omul (pctChangeGo r0.close (rt.map Row.close)) (rt.map Row.pos) := by
    simp [srOf, returnsOf, pctChange, omul]
  have hfac : ∀ x ∈ (List.zipWith omul (pctChangeGo r0.close (rt.map Row.close))
      (rt.map Row.pos)).map (Option.map (fun r => 1 + r)),
      x = some 1 := by
    intro x hx
    obtain ⟨y, hy, hyx⟩ := List.mem_map.mp hx
    rw [← hyx, hsr y hy]
    norm_num
  refine ⟨(((List.zipWith omul (pctChangeGo r0.close (rt.map Row.close))
      (rt.map Row.pos)).map (Option.map (fun r => 1 + r))).map
        (fun _ => some (1 : ℚ))).map
          (Option.map (fun v => v * cap)), ?_, ?_, ?_⟩
  · rw [equityOf, hsrOf]
    simp only [List.map_cons]
    rw [show Option.map (fun r => (1 : ℚ) + r) none = none from rfl]
    rw [show ∀ t, cumprodSkip 1 (none :: t) = none :: cumprodSkip 1 t from fun _ => rfl]
    rw [cumprodSkip_all_one _ 1 hfac]
    rfl
  · simp only [List.length_map]
    rw [List.length_zipWith, length_pctChangeGo]
    simp
  · intro x hx
    simp only [List.map_map, List.mem_map, Function.comp] at hx
    obtain ⟨y, _, hyx⟩ := hx
    rw [← hyx]
    norm_num

/-- Counterexample to C4 as stated: a two-bar frame with all required
columns whose position column contains 1/2 — a value outside {-1, 0, +1} —
yet the run succeeds instead of failing with an input-contract error: the
engine never validates position values. -/
theorem claim4_counterexample :
    dfFracPos.rows.map Row.pos = [0, 1/2] ∧
    ¬((1/2 : ℚ) = -1 ∨ (1/2 : ℚ) = 0 ∨ (1/2 : ℚ) = 1) ∧
    ∃ r, backtest dfFracPos 100000 = .ok r := by
  refine ⟨rfl, by norm_num, ?_⟩
  exact (backtest_isOk_iff dfFracPos 100000).mpr ⟨rfl, rfl, rfl, by simp [dfFracPos]⟩

/-- Claim C4 (amended): the run succeeds exactly when the Datetime, Close
and position columns are all present and the series is nonempty.  A missing
column fails with a generic key error at its point of use and an empty
series with an index error deep inside the trade statistics — not with a
dedicated input-contract check run before any computation — and the values
of the position column are never validated, so values outside {-1, 0, +1}
are accepted. -/
theorem claim4_run_failure_amended (df : Frame) (cap : ℚ) :
    (∃ r, backtest df cap = .ok r) ↔
      (df.hasDatetime = true ∧ df.hasClose = true ∧ df.hasPosition = true ∧
        df.rows ≠ []) :=
  backtest_isOk_iff df cap

/-- Counterexample to C5 as stated: on the two-bar all-flat frame the equity
curve is [NaN, 100000] — its first value is missing, not `initial_capital`,
because the undefined bar-0 strategy return is skipped by the cumulative
product but never filled. -/
theorem claim5_counterexample :
    ∃ r, backtest dfAllFlat 100000 = .ok r ∧
      r.equity = [none, some 100000] ∧
      r.equity[0]? ≠ some (some 100000) := by
  have heq : equityOf [⟨0, 100, 0⟩, ⟨1, 110, 0⟩] 100000 = [none, some 100000] := by
    simp [equityOf, srOf, returnsOf, pctChange, pctChangeGo, omul, cumprodSkip]
  have hbt : backtest dfAllFlat 100000 =
      Backtester.run ⟨true, true, true, [⟨0, 100, 0⟩, ⟨1, 110, 0⟩]⟩ 100000 := by
    rw [backtest_eq_run _ _ rfl]
    norm_num [dfAllFlat, sortRows, List.insertionSort, List.orderedInsert]
  rw [hbt, run_cons_eq]
  refine ⟨_, rfl, ?_, ?_⟩
  · exact heq
  · show (equityOf [⟨0, 100, 0⟩, ⟨1, 110, 0⟩] 100000)[0]? ≠ some (some 100000)
    rw [heq]
    simp

/-- Claim C5 (amended): when every position is 0 and all closes are
positive, the equity curve equals `initial_capital` at every bar from bar 1
on, while the bar-0 equity is missing (NaN): the undefined bar-0 return is
skipped by the cumulative product (so the first effective compounding factor
is 1) but the bar-0 entry itself is never filled. -/
theorem claim5_flat_equity_amended (df : Frame) (cap : ℚ)
    (hd : df.hasDatetime = true) (hc : df.hasClose = true)
    (hp : df.hasPosition = true) (hne : df.rows ≠ [])
    (hclose : ∀ r ∈ df.rows, 0 < r.close)
    (hflat : ∀ r ∈ df.rows, r.pos = 0) :
    ∃ res, backtest df cap = .ok res ∧
      res.equity.head? = some none ∧
      ∀ i, 1 ≤ i → i < res.equity.length → res.equity[i]? = some (some cap) := by
  have hperm := sortRows_perm df.rows
  have hclose2 : ∀ r ∈ sortRows df.rows, 0 < r.close := fun r hr =>
    hclose r (hperm.mem_iff.mp hr)
  have hflat2 : ∀ r ∈ sortRows df.rows, r.pos = 0 := fun r hr =>
    hflat r (hperm.mem_iff.mp hr)
  have hsne : sortRows df.rows ≠ [] := by
    intro h
    have hl := length_sortRows df.rows
    rw [h] at hl
    exact hne (List.eq_nil_of_length_eq_zero hl.symm)
  obtain ⟨r0, rt, hcons⟩ := List.exists_cons_of_ne_nil hsne
  rw [backtest_eq_run df cap hd, hd, hc, hp, hcons, run_cons_eq]
  obtain ⟨E, hE, hElen, hEall⟩ := equityOf_flat_cons r0 rt cap
    (ne_of_gt (hclose2 r0 (by rw [hcons]; exact List.mem_cons_self _ _)))
    (fun r hr => ne_of_gt (hclose2 r (by rw [hcons]; exact List.mem_cons_of_mem _ hr)))
    (fun r hr => hflat2 r (by rw [hcons]; exact List.mem_cons_of_mem _ hr))
  refine ⟨_, rfl, ?_, ?_⟩
  · show (equityOf (r0 :: rt) cap).head? = some none
    rw [hE]
    rfl
  · intro i h1 hi
    show (equityOf (r0 :: rt) cap)[i]? = some (some cap)
    replace hi : i < (equityOf (r0 :: rt) cap).length := hi
    rw [hE] at hi ⊢
    obtain ⟨j, rfl⟩ : ∃ j, i = j + 1 := ⟨i - 1, by omega⟩
    rw [List.getElem?_cons_succ]
    have hj : j < E.length := by
      simp only [List.length_cons] at hi
      omega
    rw [List.getElem?_eq_getElem hj]
    exact congrArg some (hEall _ (List.getElem_mem hj))

/-- Witness for the amended C5 at the concrete all-flat two-bar frame. -/
theorem claim5_witness :
    ∃ res, backtest dfAllFlat 100000 = .ok res ∧
      res.equity.head? = some none ∧
      ∀ i, 1 ≤ i → i < res.equity.length → res.equity[i]? = some (some 100000) :=
  claim5_flat_equity_amended dfAllFlat 100000 rfl rfl rfl (by simp [dfAllFlat])
    (by
      intro r hr
      simp only [dfAllFlat, List.mem_cons, List.mem_singleton] at hr
      rcases hr with h | h | h
      · subst h; norm_num
      · subst h; norm_num
      · simp at h)
    (by
      intro r hr
      simp only [dfAllFlat, List.mem_cons, List.mem_singleton] at hr
      rcases hr with h | h | h
      · subst h; rfl
      · subst h; rfl
      · simp at h)

/-! ## Sharpe-ratio and drawdown lemmas -/

theorem listVar_nonneg (l : List ℚ) : 0 ≤ listVar l := by
  unfold listVar
  apply div_nonneg
  · apply List.sum_nonneg
    intro x hx
    obtain ⟨y, _, rfl⟩ := List.mem_map.mp hx
    positivity
  · positivity

/-- Claim C6: with at least two defined strategy returns (so the standard
deviation is defined), the Sharpe ratio is exactly 0 whenever the variance
(equivalently the standard deviation) is 0 — constant strategy returns, the
all-flat case included — never dividing by zero; and with nonzero variance
it equals `mean / std * sqrt(periodsPerYear)` with the default annualization
constant 252 * 6.5 = 1638. -/
theorem claim6_sharpe (sr : List (Option ℚ))
    (h2 : 2 ≤ (sr.filterMap id).length) :
    (listVar (sr.filterMap id) = 0 → computeSharpe sr = some 0) ∧
    (listVar (sr.filterMap id) ≠ 0 →
      Real.sqrt ((listVar (sr.filterMap id) : ℚ) : ℝ) ≠ 0 ∧
      computeSharpe sr = some ((((listMean (sr.filterMap id) : ℚ) : ℝ) /
        Real.sqrt ((listVar (sr.filterMap id) : ℚ) : ℝ)) * Real.sqrt 1638)) := by
  have hguard : ¬((sr.filterMap id).length ≤ 1) := by omega
  constructor
  · intro hv
    simp [computeSharpe, sharpeMeanVar, hguard, hv]
  · intro hv
    have hvpos : (0 : ℚ) < listVar (sr.filterMap id) :=
      lt_of_le_of_ne (listVar_nonneg _) (Ne.symm hv)
    have hsqrt : Real.sqrt ((listVar (sr.filterMap id) : ℚ) : ℝ) ≠ 0 := by
      refine ne_of_gt (Real.sqrt_pos.mpr ?_)
      exact_mod_cast hvpos
    refine ⟨hsqrt, ?_⟩
    have h1638 : Real.sqrt (252 * 6.5) = Real.sqrt 1638 := by norm_num
    simp [computeSharpe, sharpeMeanVar, hguard, hv, h1638]

/-- Witness for C6 at the strategy returns [missing, 0, 0]: two defined
constant values, variance 0, Sharpe exactly 0. -/
theorem claim6_witness :
    computeSharpe [none, some 0, some 0] = some 0 :=
  (claim6_sharpe [none, some 0, some 0] (by decide)).1
    (by
      have hfm : ([none, some 0, some 0] : List (Option ℚ)).filterMap id = [0, 0] := rfl
      rw [hfm]
      norm_num [listVar, listMean, List.sum_cons, List.sum_nil, List.map_cons,
        List.map_nil])

theorem cummaxSkip_some_map (es : List ℚ) :
    ∀ a, cummaxSkip (some a) (es.map some) = (cummaxQ a es).map some := by
  induction es with
  | nil => intro a; rfl
  | cons x t ih =>
      intro a
      simp only [List.map_cons, cummaxSkip, cummaxQ]
      rw [ih (max a x)]

theorem zipWith_ddCell_map (xs : List ℚ) :
    ∀ ms : List ℚ, List.zipWith ddCell (xs.map some) (ms.map some) =
      (List.zipWith (fun x m => (x - m) / m) xs ms).map some := by
  induction xs with
  | nil => intro ms; rfl
  | cons x t ih =>
      intro ms
      cases ms with
      | nil => rfl
      | cons m mt =>
          simp only [List.map_cons, List.zipWith_cons_cons, ddCell]
          rw [ih mt]

theorem foldl_min_le_init (t : List ℚ) : ∀ x : ℚ, t.foldl min x ≤ x := by
  induction t with
  | nil => intro x; exact le_refl x
  | cons y t ih =>
      intro x
      exact le_trans (ih (min x y)) (min_le_left x y)

theorem cummaxQ_chain (t : List ℚ) :
    ∀ a, List.Chain (· ≤ ·) a t → cummaxQ a t = t := by
  induction t with
  | nil => intro a _; rfl
  | cons x t ih =>
      intro a hch
      rcases hch with _ | ⟨hax, hchx⟩
      simp only [cummaxQ, max_eq_right hax]
      rw [ih x hchx]

theorem zipWith_dd_self (t : List ℚ) :
    List.zipWith (fun x m => (x - m) / m) t t = t.map (fun _ => (0 : ℚ)) := by
  induction t with
  | nil => rfl
  | cons x t ih => simp [ih]

theorem foldl_min_zeros (t : List ℚ) :
    (t.map (fun _ => (0 : ℚ))).foldl min 0 = 0 := by
  induction t with
  | nil => rfl
  | cons x t ih => simpa [min_self] using ih

/-- Counterexample to C7 as stated: on a single-bar frame the run succeeds
and the max drawdown is missing (NaN): the whole drawdown column is NaN, so
its skipna minimum is NaN — not a number ≤ 0. -/
theorem claim7_counterexample :
    ∃ r, backtest dfOneBar 100000 = .ok r ∧ r.maxDrawdown = none := by
  have hbt : backtest dfOneBar 100000 =
      Backtester.run ⟨true, true, true, [⟨0, 100, 0⟩]⟩ 100000 := by
    rw [backtest_eq_run _ _ rfl]
    rfl
  rw [hbt, run_cons_eq]
  exact ⟨_, rfl, rfl⟩

/-- Claim C7 (amended): for an equity curve with at least two bars — missing
at bar 0, positive and defined afterwards, the shape the run produces on a
series with at least two bars, positive closes and no strategy return at or
below -100% — the max drawdown is a number, is ≤ 0, and is exactly 0 when
the defined equity values never decrease.  (On a single-bar series the
result is NaN instead: see the counterexample.) -/
theorem claim7_max_drawdown_amended (e : ℚ) (t : List ℚ)
    (hpos : ∀ x ∈ e :: t, 0 < x) :
    ∃ d, computeMaxDrawdown (none :: (e :: t).map some) = some d ∧ d ≤ 0 ∧
      (List.Chain' (· ≤ ·) (e :: t) → d = 0) := by
  have he : (0 : ℚ) < e := hpos e (List.mem_cons_self _ _)
  have hroll : cummaxSkip none ((e :: t).map some) = (e :: cummaxQ e t).map some := by
    simp only [List.map_cons, cummaxSkip]
    rw [cummaxSkip_some_map]
  have hdd : List.zipWith ddCell (none :: (e :: t).map some)
      (cummaxSkip none (none :: (e :: t).map some)) =
      none :: (List.zipWith (fun x m => (x - m) / m) (e :: t)
        (e :: cummaxQ e t)).map some := by
    show ddCell none _ :: List.zipWith ddCell ((e :: t).map some)
      (cummaxSkip none ((e :: t).map some)) = _
    rw [hroll, zipWith_ddCell_map]
    rfl
  have hzip : List.zipWith (fun x m => (x - m) / m) (e :: t) (e :: cummaxQ e t) =
      0 :: List.zipWith (fun x m => (x - m) / m) t (cummaxQ e t) := by
    simp [List.zipWith_cons_cons]
  refine ⟨(List.zipWith (fun x m => (x - m) / m) t (cummaxQ e t)).foldl min 0,
    ?_, ?_, ?_⟩
  · show ominOf (List.zipWith ddCell (none :: (e :: t).map some)
      (cummaxSkip none (none :: (e :: t).map some))) = _
    rw [hdd, hzip]
    simp only [ominOf, List.filterMap_cons]
    rw [List.filterMap_map]
    simp [List.filterMap_some, Function.comp]
  · exact foldl_min_le_init _ 0
  · intro hch
    have hcq : cummaxQ e t = t := cummaxQ_chain t e hch
    rw [hcq, zipWith_dd_self, foldl_min_zeros]

/-- Witness for the amended C7 at the concrete equity values [100, 90]:
drawdown exists, equals -1/10 ≤ 0. -/
theorem claim7_witness :
    ∃ d, computeMaxDrawdown (none :: ([100, 90] : List ℚ).map some) = some d ∧
      d ≤ 0 ∧ (List.Chain' (· ≤ ·) ([100, 90] : List ℚ) → d = 0) :=
  claim7_max_drawdown_amended 100 [90] (by
    intro x hx
    simp only [List.mem_cons, List.mem_singleton, List.not_mem_nil, or_false] at hx
    rcases hx with rfl | rfl <;> norm_num)

end BLSH
